import Mathlib

set_option maxHeartbeats 1000000

/-! Verification of the incremental GLR parser driver (`src/runtime/parser.c`).

The definitions below are a shallow embedding of the driver.  Functions whose
source lives in `parser.c` are translated statement by statement.  The driver's
external collaborators (the parse-table accessors of `language.c`, the tree
primitives of `tree.c`, and the graph-structured stack of `stack.c`) are not
part of the driver's source; where a definition stands in for one of them it is
marked `Modelled from the spec:` and follows the specification's description of
that interface. -/

/-- LR parse-action kinds, mirroring `TSParseActionType` in the parse table. -/
inductive ActionType where
  | shift
  | reduce
  | accept
  | recover
  | error
  deriving DecidableEq

/-- One table entry, mirroring the `TSParseAction` struct: a type tag, the
union payload (`to_state` for shifts, `symbol`/`child_count` for reduces) and
the `extra`, `fragile` and `can_hide_split` flags. -/
structure ParseAction where
  type : ActionType
  toState : Nat
  symbol : Nat
  childCount : Nat
  extra : Bool
  fragile : Bool
  canHideSplit : Bool
  deriving DecidableEq

/-- Modelled from the spec: `symbol_metadata(symbol)` record. -/
structure SymbolMetadata where
  extra : Bool
  structural : Bool
  named : Bool
  visible : Bool
  deriving DecidableEq

/-- Modelled from the spec: the language table interface of §6 (the compiled
parse-table encoding itself is out of scope).  `actions` is the action list for
a `(state, symbol)` pair, `lexStates` is `lex_state(state)`. -/
structure TSLanguage where
  symbolCount : Nat
  lexStates : Nat → Nat
  actions : Nat → Nat → List ParseAction
  symbolMetadata : Nat → SymbolMetadata

/-- Modelled from the spec: the reserved error symbol `ts_builtin_sym_error`. -/
def tsBuiltinSymError : Nat := 0

/-- Modelled from the spec: the reserved stack state `ts_parse_state_error`. -/
def tsParseStateError : Nat := 65535

/-- Modelled from the spec: the tree parse-state sentinel `TS_TREE_STATE_ERROR`
("do not trust for reuse"). -/
def tsTreeStateError : Nat := 65535

/-- Modelled from the spec: the lex-state sentinel `TS_TREE_STATE_INDEPENDENT`
(lexable from any lex state). -/
def tsTreeStateIndependent : Nat := 65534

/-- The default action used when a table slot is empty (`ERROR_ACTION`). -/
def errorParseAction : ParseAction :=
  ParseAction.mk ActionType.error 0 0 0 false false false

/-- Modelled from the spec: `last_action(state, symbol)` is the last element of
the action list, used as the default action. -/
def tsLanguageLastAction (lang : TSLanguage) (state sym : Nat) : ParseAction :=
  (lang.actions state sym).getLastD errorParseAction

/-- Modelled from the spec: `has_action(state, symbol)`. -/
def tsLanguageHasAction (lang : TSLanguage) (state sym : Nat) : Bool :=
  !(lang.actions state sym).isEmpty

/-- The tree node of the data model (§3): symbol, ordered children, padding and
content sizes in characters, accumulated `error_size`, the `extra` flag, the
`lex_state` and `parse_state` fields, the two fragile flags and `has_changes`. -/
inductive TSTree where
  | mk (symbol : Nat) (children : List TSTree) (padding : Nat) (size : Nat)
       (errorSize : Nat) (extra : Bool) (lexState : Nat) (parseState : Nat)
       (fragileLeft : Bool) (fragileRight : Bool) (hasChanges : Bool)

def TSTree.symbol : TSTree → Nat
  | .mk s _ _ _ _ _ _ _ _ _ _ => s

def TSTree.children : TSTree → List TSTree
  | .mk _ c _ _ _ _ _ _ _ _ _ => c

def TSTree.padding : TSTree → Nat
  | .mk _ _ p _ _ _ _ _ _ _ _ => p

def TSTree.size : TSTree → Nat
  | .mk _ _ _ sz _ _ _ _ _ _ _ => sz

def TSTree.errorSize : TSTree → Nat
  | .mk _ _ _ _ e _ _ _ _ _ _ => e

def TSTree.extra : TSTree → Bool
  | .mk _ _ _ _ _ x _ _ _ _ _ => x

def TSTree.lexState : TSTree → Nat
  | .mk _ _ _ _ _ _ ls _ _ _ _ => ls

def TSTree.parseState : TSTree → Nat
  | .mk _ _ _ _ _ _ _ ps _ _ _ => ps

def TSTree.fragileLeft : TSTree → Bool
  | .mk _ _ _ _ _ _ _ _ fl _ _ => fl

def TSTree.fragileRight : TSTree → Bool
  | .mk _ _ _ _ _ _ _ _ _ fr _ => fr

def TSTree.hasChanges : TSTree → Bool
  | .mk _ _ _ _ _ _ _ _ _ _ hc => hc

instance : Inhabited TSTree :=
  ⟨TSTree.mk 0 [] 0 0 0 false tsTreeStateIndependent 0 false false false⟩

/-- `ts_tree_is_fragile`: either fragile flag is set (§4.B). -/
def tsTreeIsFragile (t : TSTree) : Bool :=
  t.fragileLeft || t.fragileRight

/-- `ts_tree_total_chars`: padding plus content size. -/
def tsTreeTotalChars (t : TSTree) : Nat :=
  t.padding + t.size

mutual

/-- Modelled from the spec: `ts_tree_compare` (tree.c is not part of the
driver's source), the deterministic pre-order symbol/shape comparison of §4.G:
compare symbols, then child counts, then the children lexicographically;
result is -1, 0 or 1. -/
def tsTreeCompare : TSTree → TSTree → Int
  | .mk s1 c1 _ _ _ _ _ _ _ _ _, .mk s2 c2 _ _ _ _ _ _ _ _ _ =>
    if s1 < s2 then -1
    else if s2 < s1 then 1
    else if c1.length < c2.length then -1
    else if c2.length < c1.length then 1
    else tsTreeCompareList c1 c2

/-- Lexicographic comparison of child lists, part of `ts_tree_compare`. -/
def tsTreeCompareList : List TSTree → List TSTree → Int
  | [], _ => 0
  | _, [] => 0
  | a :: as1, b :: bs =>
    let r := tsTreeCompare a b
    if r = 0 then tsTreeCompareList as1 bs else r

end

/-- `ts_parser__select_tree` (parser.c:282-314): decide whether to keep the
`right` candidate over the `left` (existing) one.  A null left always loses, a
null right always loses; else the smaller `error_size` wins; on tie the
pre-order comparison decides, keeping the existing tree on full equality. -/
def tsParserSelectTree (left right : Option TSTree) : Bool :=
  match left, right with
  | none, _ => true
  | some _, none => false
  | some l, some r =>
    if r.errorSize < l.errorSize then true
    else if l.errorSize < r.errorSize then false
    else
      let c := tsTreeCompare l r
      if c = -1 then false
      else if c = 1 then true
      else false

theorem tsTreeCompareList_self (l : List TSTree)
    (h : ∀ t ∈ l, tsTreeCompare t t = 0) : tsTreeCompareList l l = 0 := by
  induction l with
  | nil => rfl
  | cons a as1 ih =>
    have ha : tsTreeCompare a a = 0 := h a (List.mem_cons_self a as1)
    simp only [tsTreeCompareList, ha, if_pos rfl]
    exact ih fun t ht => h t (List.mem_cons_of_mem a ht)

theorem tsTreeCompare_self_aux :
    ∀ n : Nat, ∀ t : TSTree, sizeOf t ≤ n → tsTreeCompare t t = 0 := by
  intro n
  induction n using Nat.strong_induction_on with
  | _ n ih =>
    intro t hle
    match t with
    | .mk s c p sz e x ls ps fl fr hc =>
      show tsTreeCompare (.mk s c p sz e x ls ps fl fr hc)
        (.mk s c p sz e x ls ps fl fr hc) = 0
      rw [tsTreeCompare]
      simp only [lt_irrefl, if_false]
      apply tsTreeCompareList_self
      intro u hu
      have h1 : sizeOf u < sizeOf c := List.sizeOf_lt_of_mem hu
      have h2 : sizeOf c < sizeOf (TSTree.mk s c p sz e x ls ps fl fr hc) := by
        simp only [TSTree.mk.sizeOf_spec]
        omega
      exact ih (sizeOf u) (by omega) u (le_refl _)

theorem tsTreeCompare_self (t : TSTree) : tsTreeCompare t t = 0 :=
  tsTreeCompare_self_aux (sizeOf t) t (le_refl _)

/-- C1: for non-null candidates, `select` keeps the right (new) tree iff its
`error_size` is strictly smaller, or the error sizes tie and the pre-order
comparison orders the right tree strictly earlier (comparison value 1, meaning
the existing tree is the later one); a tree never beats itself, so on full
structural equality the existing tree is kept. -/
theorem select_tree_prefers_smaller_error_then_earlier :
    (∀ l r : TSTree, tsParserSelectTree (some l) (some r) = true ↔
      (r.errorSize < l.errorSize ∨
        (r.errorSize = l.errorSize ∧ tsTreeCompare l r = 1)))
    ∧ ∀ t : TSTree, tsParserSelectTree (some t) (some t) = false := by
  constructor
  · intro l r
    simp only [tsParserSelectTree]
    split_ifs with h1 h2 h3 h4
    · simp only [true_iff]
      exact Or.inl h1
    · simp only [false_iff]
      intro hcon
      rcases hcon with hlt | ⟨heq, _⟩
      · omega
      · omega
    · simp only [false_iff]
      intro hcon
      rcases hcon with hlt | ⟨_, hcmp⟩
      · omega
      · rw [hcmp] at h3
        exact absurd h3 (by decide)
    · simp only [true_iff]
      exact Or.inr ⟨by omega, h4⟩
    · simp only [false_iff]
      intro hcon
      rcases hcon with hlt | ⟨_, hcmp⟩
      · omega
      · exact h4 hcmp
  · intro t
    simp only [tsParserSelectTree, lt_irrefl, if_false, tsTreeCompare_self t]
    rfl

/-- C9: a null existing tree always loses (`select(NULL, t)` keeps `t`) and a
null challenger never wins (`select(t, NULL)` keeps `t`): the first accepted
derivation becomes the finished tree no matter its `error_size`. -/
theorem select_tree_null_cases :
    ∀ t : TSTree, tsParserSelectTree none (some t) = true ∧
      tsParserSelectTree (some t) none = false := by
  intro t
  exact ⟨rfl, rfl⟩

/-- `ts_parser__can_reuse` (parser.c:183-207): a tree is reusable at the given
top state iff its symbol is not the error symbol; a fragile tree was produced
in exactly this state; its lex state is independent or matches the state's lex
state; the table's last action is neither an error nor `can_hide_split`; and an
extra tree has an extra action slot. -/
def tsParserCanReuse (lang : TSLanguage) (topState : Nat) (t : TSTree) : Bool :=
  if t.symbol = tsBuiltinSymError then false
  else if tsTreeIsFragile t && decide (t.parseState ≠ topState) then false
  else if decide (t.lexState ≠ tsTreeStateIndependent) &&
      decide (t.lexState ≠ lang.lexStates topState) then false
  else if decide ((tsLanguageLastAction lang topState t.symbol).type = ActionType.error)
      || (tsLanguageLastAction lang topState t.symbol).canHideSplit then false
  else if t.extra && !(tsLanguageLastAction lang topState t.symbol).extra then false
  else true

/-- Modelled from the spec: `make_leaf` of the tree primitives (§6) packages a
lexed symbol, padding and size into a leaf; a fresh leaf carries no error, is
not extra and its `lex_state` is `INDEPENDENT`. -/
def tsTreeMakeLeaf (sym padding size : Nat) (_md : SymbolMetadata) : TSTree :=
  TSTree.mk sym [] padding size 0 false tsTreeStateIndependent 0 false false false

/-- Modelled from the spec: `make_error` builds an error-leaf covering its own
characters (error taxonomy §7: a lexer error is an error-leaf tree). -/
def tsTreeMakeError (size padding : Nat) : TSTree :=
  TSTree.mk tsBuiltinSymError [] padding size (padding + size) false
    tsTreeStateIndependent 0 false false false

/-- The result record of the generated lexer (§6 `lex_fn`). -/
structure TSLexerResult where
  symbol : Nat
  padding : Nat
  size : Nat
  isFragile : Bool

/-- Sets only the `lex_state` field of a tree (`result->lex_state = state`). -/
def tsTreeSetLexState (t : TSTree) (st : Nat) : TSTree :=
  TSTree.mk t.symbol t.children t.padding t.size t.errorSize t.extra st
    t.parseState t.fragileLeft t.fragileRight t.hasChanges

/-- `ts_parser__lex` (parser.c:209-233): run the lexer in the given lex state,
package the result as an error leaf or an ordinary leaf, and when the lexer
reports the token as fragile, pin the leaf's `lex_state` to the lex state in
which it was lexed.  The lexer call itself is abstracted by its result. -/
def tsParserLex (lang : TSLanguage) (state : Nat) (res : TSLexerResult) : TSTree :=
  let result :=
    if res.symbol = tsBuiltinSymError then
      tsTreeMakeError res.size res.padding
    else
      tsTreeMakeLeaf res.symbol res.padding res.size (lang.symbolMetadata res.symbol)
  if res.isFragile then tsTreeSetLexState result state else result

/-- The `trees_above_error` leg of the validation (parser.c:473-483): shift each
tree above the error in order; a non-shift last action aborts; extra trees (or
extra action slots) leave the state unchanged. -/
def shiftAboveSeq (lang : TSLanguage) : Nat → List TSTree → Option Nat
  | state, [] => some state
  | state, t :: rest =>
    let action := tsLanguageLastAction lang state t.symbol
    if decide (action.type ≠ ActionType.shift) then none
    else if action.extra || t.extra then shiftAboveSeq lang state rest
    else shiftAboveSeq lang action.toState rest

/-- The final check of the validation (parser.c:485-491): some action in the
list at `(state, lookahead)` is a reduce whose symbol is the goal symbol. -/
def hasGoalReduce (lang : TSLanguage) (state la goalSym : Nat) : Bool :=
  (lang.actions state la).any fun a =>
    decide (a.type = ActionType.reduce) && decide (a.symbol = goalSym)

/-- `ts_parser__is_valid_repair`, inner traversal (parser.c:460-493): walk the
popped trees from the innermost end; every tree must have a shift as its last
action; extra trees (or extra action slots) do not advance the state or the
count; when the count reaches the goal, shift the trees above the error and
look for a reduce action for the goal symbol at the lookahead. -/
def isValidRepairGo (lang : TSLanguage) (goalSym goalCnt la : Nat)
    (above : List TSTree) : Nat → Nat → List TSTree → Bool
  | _, _, [] => false
  | state, cnt, t :: rest =>
    let action := tsLanguageLastAction lang state t.symbol
    if decide (action.type ≠ ActionType.shift) then false
    else if action.extra || t.extra then
      isValidRepairGo lang goalSym goalCnt la above state cnt rest
    else if cnt + 1 = goalCnt then
      match shiftAboveSeq lang action.toState above with
      | none => false
      | some s2 =>
        if hasGoalReduce lang s2 la goalSym then true
        else isValidRepairGo lang goalSym goalCnt la above action.toState (cnt + 1) rest
    else isValidRepairGo lang goalSym goalCnt la above action.toState (cnt + 1) rest

/-- `ts_parser__is_valid_repair` (parser.c:452-496).  The C loop runs over
`trees_below` from index `size - 1` down to `0`, so the Lean traversal runs
over the reversed list. -/
def tsParserIsValidRepair (lang : TSLanguage) (treesBelow treesAbove : List TSTree)
    (startState goalSym goalCntBelow la : Nat) : Bool :=
  isValidRepairGo lang goalSym goalCntBelow la treesAbove startState 0 treesBelow.reverse

/-- The prefix of the validation walk up to the moment the running count of
non-extra shifted trees reaches the goal: returns the state reached then.
Mirrors parser.c:460-472 (shift checks, extra skipping, counting). -/
def shiftUntilCount (lang : TSLanguage) (goalCnt : Nat) :
    Nat → Nat → List TSTree → Option Nat
  | _, _, [] => none
  | state, cnt, t :: rest =>
    let action := tsLanguageLastAction lang state t.symbol
    if decide (action.type ≠ ActionType.shift) then none
    else if action.extra || t.extra then shiftUntilCount lang goalCnt state cnt rest
    else if cnt + 1 = goalCnt then some action.toState
    else shiftUntilCount lang goalCnt action.toState (cnt + 1) rest

/-- Modelled from the spec: `array_essential_count` (I3: an extra tree is never
counted in a parent's essential child count). -/
def tsTreeArrayEssentialCount (ts : List TSTree) : Nat :=
  ts.countP fun t => !t.extra

theorem isValidRepairGo_ge_goal (lang : TSLanguage) (goalSym goalCnt la : Nat)
    (above : List TSTree) :
    ∀ l state cnt, goalCnt ≤ cnt →
      isValidRepairGo lang goalSym goalCnt la above state cnt l = false := by
  intro l
  induction l with
  | nil => intro state cnt _; rfl
  | cons t rest ih =>
    intro state cnt h
    rw [isValidRepairGo]
    split_ifs with h1 h2 h3
    · rfl
    · exact ih state cnt h
    · omega
    · exact ih _ (cnt + 1) (by omega)

theorem isValidRepairGo_iff (lang : TSLanguage) (goalSym goalCnt la : Nat)
    (above : List TSTree) :
    ∀ l state cnt,
      isValidRepairGo lang goalSym goalCnt la above state cnt l = true ↔
      (∃ s1 s2, shiftUntilCount lang goalCnt state cnt l = some s1 ∧
        shiftAboveSeq lang s1 above = some s2 ∧
        hasGoalReduce lang s2 la goalSym = true) := by
  intro l
  induction l with
  | nil =>
    intro state cnt
    simp [isValidRepairGo, shiftUntilCount]
  | cons t rest ih =>
    intro state cnt
    rw [isValidRepairGo, shiftUntilCount]
    split_ifs with h1 h2 h3
    · simp
    · exact ih state cnt
    · constructor
      · intro hL
        cases hab : shiftAboveSeq lang
            (tsLanguageLastAction lang state t.symbol).toState above with
        | none => simp only [hab, Bool.false_eq_true] at hL
        | some s2 =>
          simp only [hab] at hL
          by_cases hgr : hasGoalReduce lang s2 la goalSym = true
          · exact ⟨_, s2, rfl, hab, hgr⟩
          · rw [if_neg hgr,
              isValidRepairGo_ge_goal lang goalSym goalCnt la above rest _ (cnt + 1)
                (le_of_eq h3.symm)] at hL
            exact absurd hL (by simp)
      · rintro ⟨s1, s2x, hs1, hs2, hgrx⟩
        injection hs1 with hs1e
        subst hs1e
        simp [hs2, hgrx]
    · exact ih _ (cnt + 1)

/-- C2 (amended): a candidate repair is recorded as valid iff walking the trees
below the error from the innermost end — shifting, skipping extras — reaches
the candidate count at some state, the trees above the error all shift from
there, and the resulting state's action list for the lookahead symbol contains
a reduce action for the candidate symbol (of any child count; the code does
not compare the child count). -/
theorem is_valid_repair_characterization :
    ∀ (lang : TSLanguage) (treesBelow treesAbove : List TSTree)
      (startState goalSym goalCnt la : Nat),
      tsParserIsValidRepair lang treesBelow treesAbove startState goalSym goalCnt la
        = true ↔
      (∃ s1 s2, shiftUntilCount lang goalCnt startState 0 treesBelow.reverse = some s1 ∧
        shiftAboveSeq lang s1 treesAbove = some s2 ∧
        hasGoalReduce lang s2 la goalSym = true) := by
  intro lang treesBelow treesAbove startState goalSym goalCnt la
  exact isValidRepairGo_iff lang goalSym goalCnt la treesAbove treesBelow.reverse
    startState 0

/-- A leaf tree with the given symbol, used as concrete test input. -/
def exLeafSym (s : Nat) : TSTree :=
  TSTree.mk s [] 0 1 0 false tsTreeStateIndependent 0 false false false

/-- A shift table action to the given state. -/
def mkShiftAction (toState : Nat) : ParseAction :=
  ParseAction.mk ActionType.shift toState 0 0 false false false

/-- A reduce table action for the given symbol and child count. -/
def mkReduceAction (sym cnt : Nat) : ParseAction :=
  ParseAction.mk ActionType.reduce 0 sym cnt false false false

/-- A concrete table: state 0 shifts symbol 10 to state 2; state 2 has a single
reduce action for symbol 20 with child count 99 at lookahead 7. -/
def exLangC2 : TSLanguage :=
  TSLanguage.mk 30 (fun _ => 0)
    (fun state sym =>
      if state = 0 ∧ sym = 10 then [mkShiftAction 2]
      else if state = 2 ∧ sym = 7 then [mkReduceAction 20 99]
      else [])
    (fun _ => SymbolMetadata.mk false false false false)

/-- C2 counterexample: the validation accepts this repair (candidate symbol 20,
count 1, no trees above the error, so the claim's "original child count" is 1)
even though the only reduce action for symbol 20 at the reached state has child
count 99 — the code never compares the child count, refuting the claim as
stated. -/
theorem is_valid_repair_ignores_child_count_cex :
    tsParserIsValidRepair exLangC2 [exLeafSym 10] [] 0 20 1 7 = true
    ∧ shiftUntilCount exLangC2 1 0 0 (List.reverse [exLeafSym 10]) = some 2
    ∧ shiftAboveSeq exLangC2 2 [] = some 2
    ∧ ((exLangC2.actions 2 7).any fun a =>
        decide (a.type = ActionType.reduce) && decide (a.symbol = 20) &&
        decide (a.childCount = 1 + tsTreeArrayEssentialCount [])) = false := by
  refine ⟨by decide, by decide, by decide, by decide⟩

/-- A concrete table for reuse tests: at state 0 the last action for symbol 5
is a plain (non-hide-split) reduce; everywhere else the table is empty. -/
def exLangC4 : TSLanguage :=
  TSLanguage.mk 30 (fun _ => 0)
    (fun state sym => if state = 0 ∧ sym = 5 then [mkReduceAction 9 2] else [])
    (fun _ => SymbolMetadata.mk false false false false)

/-- C4 counterexample: a clean, independent, non-extra tree whose last action
at the top state is a plain reduce (not a shift) is reported reusable, refuting
the claim that `can_reuse` returns true only for shift actions. -/
theorem can_reuse_nonshift_cex :
    tsParserCanReuse exLangC4 0 (exLeafSym 5) = true
    ∧ (tsLanguageLastAction exLangC4 0 (exLeafSym 5).symbol).type ≠ ActionType.shift
    ∧ (tsLanguageLastAction exLangC4 0 (exLeafSym 5).symbol).type ≠ ActionType.error
    ∧ (tsLanguageLastAction exLangC4 0 (exLeafSym 5).symbol).canHideSplit = false := by
  refine ⟨by decide, by decide, by decide, by decide⟩

/-- C4 (amended): `can_reuse` returns true only if the table's last action for
the top state and the tree's symbol is neither an error action nor flagged
`can_hide_split`; whenever the last action is an error or hide-split action,
`can_reuse` returns false. -/
theorem can_reuse_requires_no_error_no_hide_split :
    ∀ (lang : TSLanguage) (topState : Nat) (t : TSTree),
      ((tsLanguageLastAction lang topState t.symbol).type = ActionType.error
        ∨ (tsLanguageLastAction lang topState t.symbol).canHideSplit = true) →
      tsParserCanReuse lang topState t = false := by
  intro lang topState t h
  rw [tsParserCanReuse]
  split_ifs with h1 h2 h3 h4 h5
  · rfl
  · rfl
  · rfl
  · rfl
  · rfl
  · exfalso
    apply h4
    rcases h with he | hc
    · rw [he]
      simp
    · rw [hc]
      simp

/-- C4 amended-claim witness: at a state with an empty action list the last
action defaults to the error action and `can_reuse` indeed refuses. -/
theorem can_reuse_requires_no_error_no_hide_split_witness :
    ((tsLanguageLastAction exLangC4 1 (exLeafSym 5).symbol).type = ActionType.error
      ∨ (tsLanguageLastAction exLangC4 1 (exLeafSym 5).symbol).canHideSplit = true)
    ∧ tsParserCanReuse exLangC4 1 (exLeafSym 5) = false :=
  ⟨Or.inl (by decide),
    can_reuse_requires_no_error_no_hide_split exLangC4 1 (exLeafSym 5)
      (Or.inl (by decide))⟩

theorem can_reuse_lex_state_check (lang : TSLanguage) (topState : Nat) (t : TSTree)
    (h : tsParserCanReuse lang topState t = true) :
    t.lexState = tsTreeStateIndependent ∨ t.lexState = lang.lexStates topState := by
  by_contra hcon
  push_neg at hcon
  rw [tsParserCanReuse] at h
  split_ifs at h with h1 h2 h3 h4 h5
  all_goals
    first
      | (simp at h
         done)
      | exact h3 (by
          simp only [Bool.and_eq_true, decide_eq_true_eq]
          exact hcon)

/-- C10: when the lexer reports a token as fragile, the produced leaf's
`lex_state` is pinned to the lex state in which it was lexed (not
`INDEPENDENT`), so the leaf can pass `can_reuse`'s lex-state check only at a
top state whose lex state is that same state. -/
theorem fragile_lex_sets_lex_state :
    ∀ (lang : TSLanguage) (state : Nat) (res : TSLexerResult) (topState : Nat),
      res.isFragile = true → state ≠ tsTreeStateIndependent →
      (tsParserLex lang state res).lexState = state ∧
      (tsParserCanReuse lang topState (tsParserLex lang state res) = true →
        lang.lexStates topState = state) := by
  intro lang state res topState hfrag hind
  have hlex : (tsParserLex lang state res).lexState = state := by
    rw [tsParserLex]
    split_ifs with h1
    · simp [hfrag, tsTreeSetLexState, TSTree.lexState]
    · simp [hfrag, tsTreeSetLexState, TSTree.lexState]
  refine ⟨hlex, ?_⟩
  intro hcr
  rcases can_reuse_lex_state_check lang topState _ hcr with hi | he
  · rw [hlex] at hi
    exact absurd hi hind
  · rw [hlex] at he
    exact he.symm

/-- The empty concrete language used as a witness input. -/
def exLangEmpty : TSLanguage :=
  TSLanguage.mk 1 (fun _ => 0) (fun _ _ => []) (fun _ => SymbolMetadata.mk false false false false)

/-- C10 witness at a concrete fragile lex result. -/
theorem fragile_lex_sets_lex_state_witness :
    (TSLexerResult.mk 4 0 1 true).isFragile = true
    ∧ (3 : Nat) ≠ tsTreeStateIndependent
    ∧ ((tsParserLex exLangEmpty 3 (TSLexerResult.mk 4 0 1 true)).lexState = 3 ∧
      (tsParserCanReuse exLangEmpty 0 (tsParserLex exLangEmpty 3 (TSLexerResult.mk 4 0 1 true)) = true →
        exLangEmpty.lexStates 0 = 3)) :=
  ⟨rfl, by decide,
    fragile_lex_sets_lex_state exLangEmpty 3 (TSLexerResult.mk 4 0 1 true) 0 rfl (by decide)⟩

/-- Modelled from the spec: the `error_size` contribution of a child (I2: total
characters covered by descendant error nodes; an error node covers its own
span). -/
def tsTreeErrContribution (t : TSTree) : Nat :=
  if t.symbol = tsBuiltinSymError then tsTreeTotalChars t else t.errorSize

/-- Sum of a character measure over a list of trees. -/
def sumBy (f : TSTree → Nat) (ts : List TSTree) : Nat :=
  ts.foldl (fun a t => a + f t) 0

/-- Modelled from the spec: `make_node` of the tree primitives (§6) builds a
fresh interior node over the given children; sizes and `error_size` follow I1
and I2, the reuse-related fields start clean. -/
def tsTreeMakeNode (sym : Nat) (children : List TSTree) (_md : SymbolMetadata) : TSTree :=
  TSTree.mk sym children 0 (sumBy tsTreeTotalChars children)
    (sumBy tsTreeErrContribution children) false tsTreeStateIndependent 0
    false false false

/-- Marks a reduction result as produced under ambiguity (parser.c:419-421):
both fragile flags and `parse_state = TS_TREE_STATE_ERROR`. -/
def setFragileErrorMark (t : TSTree) : TSTree :=
  TSTree.mk t.symbol t.children t.padding t.size t.errorSize t.extra t.lexState
    tsTreeStateError true true t.hasChanges

/-- Sets only the `parse_state` field (parser.c:423). -/
def setTreeParseState (t : TSTree) (st : Nat) : TSTree :=
  TSTree.mk t.symbol t.children t.padding t.size t.errorSize t.extra t.lexState
    st t.fragileLeft t.fragileRight t.hasChanges

/-- Sets only the `extra` flag (parser.c:428). -/
def setTreeExtra (t : TSTree) : TSTree :=
  TSTree.mk t.symbol t.children t.padding t.size t.errorSize true t.lexState
    t.parseState t.fragileLeft t.fragileRight t.hasChanges

/-- The child count of a popped slice after discounting trailing extra trees
(parser.c:387-389). -/
def childCountNoTrailingExtra (ts : List TSTree) : Nat :=
  ts.length - (ts.reverse.takeWhile fun t => t.extra).length

/-- The per-slice body of `ts_parser__reduce` (parser.c:384-441) that builds
and marks the new parent node, with the stack reads supplied as arguments:
`multiple` is `ts_stack_version_count(stack) > 1` at the marking point,
`stateAfterPop` the top state of the slice's version after the pop.  Returns
the finished parent and the state it is pushed with. -/
def reduceBuildParent (lang : TSLanguage) (sym : Nat) (sliceTrees : List TSTree)
    (fragile isSplit multiple : Bool) (stateAfterPop : Nat) (extra : Bool) :
    TSTree × Nat :=
  let cc := childCountNoTrailingExtra sliceTrees
  let parent0 := tsTreeMakeNode sym (sliceTrees.take cc) (lang.symbolMetadata sym)
  let parent1 :=
    if fragile || isSplit || multiple then setFragileErrorMark parent0
    else setTreeParseState parent0 stateAfterPop
  if extra then (setTreeExtra parent1, stateAfterPop)
  else (parent1, (tsLanguageLastAction lang stateAfterPop sym).toState)

/-- C6 counterexample: a successful, non-fragile reduction performed while the
stack currently has a single version but inside a split cycle (`is_split` set)
is still marked with `parse_state = STATE_ERROR` and both fragile flags, so
the claimed "otherwise parse_state equals the top state after the pop" fails
at this input. -/
theorem reduce_mark_is_split_cex :
    ((reduceBuildParent exLangEmpty 7 [exLeafSym 4] false true false 5 false).1).parseState
        = tsTreeStateError
    ∧ ((reduceBuildParent exLangEmpty 7 [exLeafSym 4] false true false 5 false).1).fragileLeft
        = true
    ∧ ((reduceBuildParent exLangEmpty 7 [exLeafSym 4] false true false 5 false).1).fragileRight
        = true
    ∧ tsTreeStateError ≠ 5 := by
  refine ⟨by decide, by decide, by decide, by decide⟩

/-- C6 (amended): the parent node built by a successful reduction carries both
fragile flags and `parse_state = STATE_ERROR` exactly when the reduction is
fragile, or the parser is in a split cycle (`is_split`), or the stack has
multiple live versions at the marking point; otherwise its `parse_state` is
the top state of the slice's version after the pop. -/
theorem reduce_mark_characterization :
    ∀ (lang : TSLanguage) (sym : Nat) (ts : List TSTree)
      (fragile isSplit multiple : Bool) (state : Nat) (extra : Bool),
      ((reduceBuildParent lang sym ts fragile isSplit multiple state extra).1).fragileLeft
          = (fragile || isSplit || multiple)
      ∧ ((reduceBuildParent lang sym ts fragile isSplit multiple state extra).1).fragileRight
          = (fragile || isSplit || multiple)
      ∧ ((reduceBuildParent lang sym ts fragile isSplit multiple state extra).1).parseState
          = (if (fragile || isSplit || multiple) = true then tsTreeStateError else state) := by
  intro lang sym ts fragile isSplit multiple state extra
  by_cases hc : (fragile || isSplit || multiple) = true
  · cases extra <;>
      simp [reduceBuildParent, hc, setFragileErrorMark, setTreeExtra,
        setTreeParseState, tsTreeMakeNode, TSTree.fragileLeft, TSTree.fragileRight,
        TSTree.parseState]
  · cases extra <;>
      simp [reduceBuildParent, hc, setFragileErrorMark, setTreeExtra,
        setTreeParseState, tsTreeMakeNode, TSTree.fragileLeft, TSTree.fragileRight,
        TSTree.parseState]

/-- The result of one `consume_lookahead` call, as seen by the main loop. -/
inductive StepResult where
  | updated
  | removed
  | failed
  deriving DecidableEq

/-- The observable outcome of the per-version inner loop of the main parse
loop: advance to the next version after some number of consumes (carrying the
updated `max_position`), exit because the version was removed by an accept, or
exit on failure. -/
inductive WalkOutcome where
  | advanced (consumes : Nat) (newMax : Nat)
  | removedAfter (consumes : Nat)
  | failedAfter (consumes : Nat)
  | outOfFuel
  deriving DecidableEq

/-- The per-version inner loop of `ts_parser_parse` (parser.c:961-1000), with
`consume_lookahead` abstracted by oracles: `pos j` is the version's top
position on entering the loop after `j` consumes and `step j` the result of
the `j`-th consume.  The loop advances to the next version when the position
strictly exceeds `maxPos` (updating it), or equals `maxPos` with version index
greater than 0; otherwise it consumes the lookahead, exiting on removal or
failure. -/
def versionWalk (pos : Nat → Nat) (step : Nat → StepResult) (version maxPos : Nat) :
    Nat → Nat → WalkOutcome
  | 0, _ => WalkOutcome.outOfFuel
  | fuel + 1, j =>
    if maxPos < pos j then WalkOutcome.advanced j (pos j)
    else if pos j = maxPos ∧ 0 < version then WalkOutcome.advanced j maxPos
    else
      match step j with
      | StepResult.removed => WalkOutcome.removedAfter (j + 1)
      | StepResult.failed => WalkOutcome.failedAfter (j + 1)
      | StepResult.updated => versionWalk pos step version maxPos fuel (j + 1)

/-- C5 counterexample: with version index 1 at position 3 and `max_position`
5, the claim's stop condition ("at or behind `max_position` with index above
0") already holds before any consume, yet the loop performs two consumes
(positions 3 and 4 are strictly behind) and only advances on reaching position
5 exactly — refuting the claim as stated. -/
theorem version_walk_behind_max_cex :
    versionWalk (fun k => 3 + k) (fun _ => StepResult.updated) 1 5 10 0
        = WalkOutcome.advanced 2 5
    ∧ ((3 : Nat) + 0 ≤ 5 ∧ 0 < 1)
    ∧ (2 : Nat) ≠ 0 := by
  refine ⟨by decide, by decide, by decide⟩

/-- C5 (amended): in each outer iteration, a version's inner loop invokes
`consume_lookahead` repeatedly until the version's top position strictly
exceeds the previous `max_position` (which is then updated to it), or the
position equals `max_position` and the version's index is greater than 0, and
only then advances to the next version; every earlier iteration failed both
conditions and consumed with result `updated` (the loop can also exit early
when the version is removed by an accept or on failure, without advancing). -/
theorem version_walk_advance_characterization :
    ∀ (pos : Nat → Nat) (step : Nat → StepResult) (version maxPos fuel j k m : Nat),
      versionWalk pos step version maxPos fuel j = WalkOutcome.advanced k m →
      (maxPos < pos k ∨ (pos k = maxPos ∧ 0 < version))
      ∧ (∀ i, j ≤ i → i < k → ¬(maxPos < pos i) ∧ ¬(pos i = maxPos ∧ 0 < version)
          ∧ step i = StepResult.updated)
      ∧ m = (if maxPos < pos k then pos k else maxPos)
      ∧ j ≤ k := by
  intro pos step version maxPos fuel
  induction fuel with
  | zero =>
    intro j k m h
    exact absurd h (by simp [versionWalk])
  | succ n ih =>
    intro j k m h
    rw [versionWalk] at h
    split_ifs at h with h1 h2
    · injection h with hk hm
      subst hk
      subst hm
      exact ⟨Or.inl h1, fun i hji hik => absurd (lt_of_le_of_lt hji hik) (lt_irrefl _),
        (if_pos h1).symm, le_refl _⟩
    · injection h with hk hm
      subst hk
      subst hm
      exact ⟨Or.inr h2, fun i hji hik => absurd (lt_of_le_of_lt hji hik) (lt_irrefl _),
        (if_neg h1).symm, le_refl _⟩
    · cases hs : step j with
      | removed =>
        simp only [hs] at h
        exact absurd h (by simp)
      | failed =>
        simp only [hs] at h
        exact absurd h (by simp)
      | updated =>
        simp only [hs] at h
        obtain ⟨hc1, hc2, hc3, hc4⟩ := ih (j + 1) k m h
        refine ⟨hc1, ?_, hc3, by omega⟩
        intro i hji hik
        by_cases hij : i = j
        · subst hij
          exact ⟨h1, h2, hs⟩
        · exact hc2 i (by omega) hik

/-- C5 amended-claim witness: at version index 0 with the first position
already beyond `max_position`, the loop advances immediately. -/
theorem version_walk_advance_characterization_witness :
    versionWalk (fun k => 3 + k) (fun _ => StepResult.updated) 0 2 10 0
        = WalkOutcome.advanced 0 3
    ∧ ((2 < 3 + 0 ∨ (3 + 0 = 2 ∧ 0 < 0))
      ∧ (∀ i, 0 ≤ i → i < 0 → ¬(2 < 3 + i) ∧ ¬(3 + i = 2 ∧ 0 < 0)
          ∧ (fun _ => StepResult.updated) i = StepResult.updated)
      ∧ 3 = (if 2 < 3 + 0 then 3 + 0 else 2)
      ∧ 0 ≤ 0) :=
  ⟨by decide, version_walk_advance_characterization (fun k => 3 + k)
    (fun _ => StepResult.updated) 0 2 10 0 0 3 (by decide)⟩

/-- A reduce candidate of the repair search: the `ReduceAction` record
(symbol, count). -/
structure ReduceAction where
  symbol : Nat
  count : Nat
  deriving DecidableEq

/-- The mutable `ErrorRepairSession` record of the repair search, with the
parser/lookahead/slice fields supplied separately; `recordings` is a history
of the skip counts of every repair recorded into the session, added so that
the ranking can be stated (the C session keeps only the latest values). -/
structure ErrorRepairSession where
  found : Bool
  bestSymbol : Nat
  bestCount : Nat
  bestSkip : Nat
  bestNextState : Nat
  recordings : List Nat

/-- The session at the start of `ts_parser__repair_error`. -/
def initRepairSession : ErrorRepairSession :=
  ErrorRepairSession.mk false 0 0 0 0 []

/-- One invocation of `ts_parser__error_repair_callback` (parser.c:498-545) on
one stack frame: walk the surviving candidates; a candidate needing more trees
is kept; once a repair is found, any candidate whose skip count is not
strictly better is erased; a candidate whose symbol has no shift at this
state, or no action for the lookahead after the shift, is kept for deeper
frames; a validated candidate is recorded as the new best and erased.  Returns
the surviving candidates and the updated session. -/
def repairFrameStep (lang : TSLanguage) (la : Nat) (above : List TSTree)
    (state : Nat) (trees : List TSTree) (treeCount : Nat) :
    List ReduceAction → ErrorRepairSession → List ReduceAction × ErrorRepairSession
  | [], s => ([], s)
  | c :: rest, s =>
    if treeCount < c.count then
      let r := repairFrameStep lang la above state trees treeCount rest s
      (c :: r.1, r.2)
    else if s.found && decide (s.bestSkip ≤ treeCount - c.count) then
      repairFrameStep lang la above state trees treeCount rest s
    else if decide ((tsLanguageLastAction lang state c.symbol).type ≠ ActionType.shift) then
      let r := repairFrameStep lang la above state trees treeCount rest s
      (c :: r.1, r.2)
    else if !tsLanguageHasAction lang (tsLanguageLastAction lang state c.symbol).toState la then
      let r := repairFrameStep lang la above state trees treeCount rest s
      (c :: r.1, r.2)
    else if tsParserIsValidRepair lang trees above state c.symbol c.count la then
      repairFrameStep lang la above state trees treeCount rest
        (ErrorRepairSession.mk true c.symbol c.count (treeCount - c.count)
          (tsLanguageLastAction lang state c.symbol).toState
          (s.recordings ++ [treeCount - c.count]))
    else
      let r := repairFrameStep lang la above state trees treeCount rest s
      (c :: r.1, r.2)

/-- One stack frame handed to the repair callback by `ts_stack_iterate`:
the frame's state, its trees-so-far and their count. -/
structure RepairFrame where
  state : Nat
  trees : List TSTree
  treeCount : Nat

/-- The stack-descent of `ts_parser__repair_error` (parser.c:569-570):
`ts_stack_iterate` feeds frames to the callback in descent order, stopping
when the candidate set becomes empty (`StackIterateStop`). -/
def repairRun (lang : TSLanguage) (la : Nat) (above : List TSTree) :
    List RepairFrame → List ReduceAction × ErrorRepairSession →
    List ReduceAction × ErrorRepairSession
  | [], cs => cs
  | f :: fs, cs =>
    let r := repairFrameStep lang la above f.state f.trees f.treeCount cs.1 cs.2
    if r.1.isEmpty then r else repairRun lang la above fs r

/-- The session invariant of the repair ranking: a repair has been found iff
something was recorded, recorded skip counts strictly decrease, and the
current best skip is the last (hence smallest) recording. -/
def SessionInv (s : ErrorRepairSession) : Prop :=
  (s.found = true ↔ s.recordings ≠ [])
  ∧ List.Chain' (fun a b => b < a) s.recordings
  ∧ (s.found = true → s.recordings.getLast? = some s.bestSkip)
  ∧ (∀ x ∈ s.recordings, s.bestSkip ≤ x)

theorem getLast?_append_singleton {α : Type} (l : List α) (x : α) :
    (l ++ [x]).getLast? = some x := by
  simp

theorem repairFrameStep_inv (lang : TSLanguage) (la : Nat) (above : List TSTree)
    (state : Nat) (trees : List TSTree) (treeCount : Nat) :
    ∀ (cs : List ReduceAction) (s : ErrorRepairSession), SessionInv s →
      SessionInv (repairFrameStep lang la above state trees treeCount cs s).2 := by
  intro cs
  induction cs with
  | nil => intro s h; exact h
  | cons c rest ih =>
    intro s h
    rw [repairFrameStep]
    split_ifs with h1 h2 h3 h4 h5
    · exact ih s h
    · exact ih s h
    · exact ih s h
    · exact ih s h
    · apply ih
      obtain ⟨hiff, hchain, hlast, hle⟩ := h
      dsimp only [SessionInv]
      by_cases hf : s.found = true
      · have hskip : treeCount - c.count < s.bestSkip := by
          rw [hf] at h2
          simp only [Bool.true_and, decide_eq_true_eq] at h2
          omega
        have hne : s.recordings ≠ [] := hiff.mp hf
        refine ⟨by simp, ?_, ?_, ?_⟩
        · rw [List.chain'_append]
          refine ⟨hchain, List.chain'_singleton _, ?_⟩
          intro a ha b hb
          simp only [List.head?_cons, Option.mem_def, Option.some.injEq] at hb
          subst hb
          rw [hlast hf] at ha
          simp only [Option.mem_def, Option.some.injEq] at ha
          subst ha
          exact hskip
        · intro _
          exact getLast?_append_singleton _ _
        · intro x hx
          rcases List.mem_append.mp hx with hxl | hxr
          · exact le_of_lt (lt_of_lt_of_le hskip (hle x hxl))
          · simp only [List.mem_singleton] at hxr
            omega
      · have hnil : s.recordings = [] := by
          by_contra hcon
          exact hf (hiff.mpr hcon)
        rw [hnil]
        refine ⟨by simp, by simp, ?_, ?_⟩
        · intro _
          rfl
        · intro x hx
          simp only [List.nil_append, List.mem_singleton] at hx
          omega
    · exact ih s h

theorem repairRun_inv (lang : TSLanguage) (la : Nat) (above : List TSTree) :
    ∀ (frames : List RepairFrame) (cs : List ReduceAction) (s : ErrorRepairSession),
      SessionInv s → SessionInv (repairRun lang la above frames (cs, s)).2 := by
  intro frames
  induction frames with
  | nil => intro cs s h; exact h
  | cons f fs ih =>
    intro cs s h
    rw [repairRun]
    have hstep := repairFrameStep_inv lang la above f.state f.trees f.treeCount cs s h
    split_ifs with h1
    · exact hstep
    · exact ih _ _ hstep

/-- C7: over any stack descent, the skip counts of the successively recorded
valid repairs strictly decrease (so a tie never replaces the earlier find,
which was found higher in the descent or earlier in the candidate list), a
repair is found iff one was recorded, and the finally applied repair's
`skip_count` is the last recording and a lower bound of all recorded skip
counts — the smallest one. -/
theorem repair_ranking_smallest_skip_earliest_tie :
    ∀ (lang : TSLanguage) (la : Nat) (above : List TSTree)
      (frames : List RepairFrame) (cands : List ReduceAction),
      ((repairRun lang la above frames (cands, initRepairSession)).2.found = true ↔
        (repairRun lang la above frames (cands, initRepairSession)).2.recordings ≠ [])
      ∧ List.Chain' (fun a b => b < a)
          (repairRun lang la above frames (cands, initRepairSession)).2.recordings
      ∧ ((repairRun lang la above frames (cands, initRepairSession)).2.found = true →
          (repairRun lang la above frames (cands, initRepairSession)).2.recordings.getLast?
            = some (repairRun lang la above frames (cands, initRepairSession)).2.bestSkip)
      ∧ ∀ x ∈ (repairRun lang la above frames (cands, initRepairSession)).2.recordings,
          (repairRun lang la above frames (cands, initRepairSession)).2.bestSkip ≤ x := by
  intro lang la above frames cands
  exact repairRun_inv lang la above frames cands initRepairSession
    ⟨by simp [initRepairSession], by simp [initRepairSession],
      by simp [initRepairSession], by simp [initRepairSession]⟩

/-- Modelled from the spec: `set_children` of the tree primitives (§6, §9)
replaces the children array and recomputes the cached sizes and `error_size`
from the new children (I1, I2). -/
def tsTreeSetChildren (t : TSTree) (cs : List TSTree) : TSTree :=
  TSTree.mk t.symbol cs t.padding (sumBy tsTreeTotalChars cs)
    (sumBy tsTreeErrContribution cs) t.extra t.lexState t.parseState
    t.fragileLeft t.fragileRight t.hasChanges

/-- Adds to the `error_size` field only (`root->error_size += ...`). -/
def addTreeErrorSize (t : TSTree) (n : Nat) : TSTree :=
  TSTree.mk t.symbol t.children t.padding t.size (t.errorSize + n) t.extra
    t.lexState t.parseState t.fragileLeft t.fragileRight t.hasChanges

/-- The right-to-left scan of the accept finalizer (parser.c:650-651): the
index of the last non-extra tree of the slice, if any. -/
def findRightmost : List TSTree → Option Nat
  | [] => none
  | t :: rest =>
    match findRightmost rest with
    | some j => some (j + 1)
    | none => if t.extra then none else some 0

/-- The accept finalization of one popped slice (parser.c:646-671, the part
that builds the root): locate the root (last non-extra tree), splice the
root's own children into the slice in place of the root, re-set the root's
children to the spliced sequence, then, once per preceding non-extra sibling,
add to `error_size` the `size` of `children[j]` — the element now sitting at
the root's former index `j` of the spliced sequence. -/
def acceptFinalizeRoot (ts : List TSTree) : Option TSTree :=
  match findRightmost ts with
  | none => none
  | some j =>
    let root := ts.getD j default
    let spliced := ts.take j ++ root.children ++ ts.drop (j + 1)
    let root1 := tsTreeSetChildren root spliced
    let inc := ((spliced.take j).countP fun t => !t.extra) * (spliced.getD j default).size
    some (addTreeErrorSize root1 inc)

/-- Following the spec's words for the accept finalizer (the refinement
target of C3): identical to `acceptFinalizeRoot` except that the `error_size`
increment is the sum of the sizes of the non-extra siblings that preceded the
root in the slice. -/
def acceptFinalizeRootSpec (ts : List TSTree) : Option TSTree :=
  match findRightmost ts with
  | none => none
  | some j =>
    let root := ts.getD j default
    let spliced := ts.take j ++ root.children ++ ts.drop (j + 1)
    let root1 := tsTreeSetChildren root spliced
    let inc := sumBy TSTree.size ((ts.take j).filter fun t => !t.extra)
    some (addTreeErrorSize root1 inc)

/-- A preceding sibling of size 5 for the accept counterexample. -/
def exLeafA : TSTree :=
  TSTree.mk 1 [] 0 5 0 false tsTreeStateIndependent 0 false false false

/-- A child of size 9 for the accept counterexample. -/
def exChildC : TSTree :=
  TSTree.mk 3 [] 0 9 0 false tsTreeStateIndependent 0 false false false

/-- The root tree (one child of size 9) for the accept counterexample. -/
def exRootB : TSTree :=
  TSTree.mk 2 [exChildC] 0 9 0 false tsTreeStateIndependent 0 false false false

/-- C3 counterexample: for the slice `[a, root]` with one preceding non-extra
sibling of size 5 and a root whose first child has size 9, the code adds 9
(the size of `children[j]`, the root's first original child, counted once per
preceding non-extra sibling) while the claim demands the sum of the preceding
non-extra siblings' sizes, 5 — so the claim fails on this slice. -/
theorem accept_error_size_cex :
    (acceptFinalizeRoot [exLeafA, exRootB]).map TSTree.errorSize = some 9
    ∧ (acceptFinalizeRootSpec [exLeafA, exRootB]).map TSTree.errorSize = some 5
    ∧ (9 : Nat) ≠ 5 := by
  refine ⟨by decide, by decide, by decide⟩

theorem findRightmost_none_all_extra :
    ∀ ts : List TSTree, findRightmost ts = none → ∀ t ∈ ts, t.extra = true := by
  intro ts
  induction ts with
  | nil => intro _ t ht; exact absurd ht (List.not_mem_nil t)
  | cons a rest ih =>
    intro h t ht
    rw [findRightmost] at h
    cases hrest : findRightmost rest with
    | some j =>
      simp only [hrest] at h
      exact absurd h (by simp)
    | none =>
      simp only [hrest] at h
      split_ifs at h with ha
      rcases List.mem_cons.mp ht with he | hm
      · rw [he]; exact ha
      · exact ih hrest t hm

theorem findRightmost_spec :
    ∀ (ts : List TSTree) (j : Nat), findRightmost ts = some j →
      j < ts.length ∧ (ts.getD j default).extra = false
      ∧ ∀ k, j < k → k < ts.length → (ts.getD k default).extra = true := by
  intro ts
  induction ts with
  | nil =>
    intro j h
    rw [findRightmost] at h
    exact absurd h (by simp)
  | cons a rest ih =>
    intro j h
    rw [findRightmost] at h
    cases hrest : findRightmost rest with
    | some j0 =>
      simp only [hrest] at h
      injection h with hj
      subst hj
      obtain ⟨h1, h2, h3⟩ := ih j0 hrest
      refine ⟨by simp only [List.length_cons]; omega, ?_, ?_⟩
      · simpa using h2
      · intro k hk1 hk2
        cases k with
        | zero => omega
        | succ kk =>
          have hkk : (rest.getD kk default).extra = true := by
            apply h3 kk (by omega)
            simp only [List.length_cons] at hk2
            omega
          simpa using hkk
    | none =>
      simp only [hrest] at h
      split_ifs at h with ha
      injection h with hj
      subst hj
      refine ⟨by simp, by simpa using ha, ?_⟩
      intro k hk1 hk2
      cases k with
      | zero => omega
      | succ kk =>
        have hlt : kk < rest.length := by
          simp only [List.length_cons] at hk2
          omega
        have hm : rest.getD kk default ∈ rest := by
          rw [List.getD_eq_getElem rest default hlt]
          exact List.getElem_mem hlt
        simpa using findRightmost_none_all_extra rest hrest _ hm

/-- C3 (amended): for every popped slice containing a non-extra tree, the root
is the rightmost non-extra tree of the slice; the finalized root's children
are the slice with the root's own children spliced in place of the root; and
the root's `error_size` is the recomputed `set_children` value increased by
the `size` of the spliced sequence's element at the root's former index (the
root's first original child when it has children), counted once per preceding
non-extra sibling — not by the sum of the preceding non-extra siblings'
sizes. -/
theorem accept_finalize_characterization :
    ∀ (ts : List TSTree) (j : Nat), findRightmost ts = some j →
      ∃ r, acceptFinalizeRoot ts = some r
      ∧ r.children = ts.take j ++ (ts.getD j default).children ++ ts.drop (j + 1)
      ∧ r.errorSize =
          (tsTreeSetChildren (ts.getD j default)
            (ts.take j ++ (ts.getD j default).children ++ ts.drop (j + 1))).errorSize
          + ((ts.take j).countP fun t => !t.extra)
            * ((ts.take j ++ (ts.getD j default).children ++ ts.drop (j + 1)).getD j
                default).size
      ∧ (ts.getD j default).extra = false
      ∧ ∀ k, j < k → k < ts.length → (ts.getD k default).extra = true := by
  intro ts j h
  obtain ⟨h1, h2, h3⟩ := findRightmost_spec ts j h
  have htk : (ts.take j).length = j := List.length_take_of_le (le_of_lt h1)
  have hsp : (ts.take j ++ ((ts.getD j default).children ++ ts.drop (j + 1))).take j
      = ts.take j := by
    rw [List.take_append_of_le_length (by omega)]
    exact List.take_of_length_le (le_of_eq htk)
  refine ⟨addTreeErrorSize
      (tsTreeSetChildren (ts.getD j default)
        (ts.take j ++ (ts.getD j default).children ++ ts.drop (j + 1)))
      ((((ts.take j ++ (ts.getD j default).children ++ ts.drop (j + 1)).take j).countP
          fun t => !t.extra)
        * ((ts.take j ++ (ts.getD j default).children ++ ts.drop (j + 1)).getD j
            default).size),
    ?_, ?_, ?_, h2, h3⟩
  · simp only [acceptFinalizeRoot, h]
  · simp only [addTreeErrorSize, tsTreeSetChildren, TSTree.children]
  · simp only [addTreeErrorSize, TSTree.errorSize, List.append_assoc] at hsp ⊢
    rw [hsp]

/-- C3 amended-claim witness: the concrete slice of the counterexample,
finalized: the root keeps the spliced children and gains 9 = 1 × 9. -/
theorem accept_finalize_characterization_witness :
    findRightmost [exLeafA, exRootB] = some 1
    ∧ ∃ r, acceptFinalizeRoot [exLeafA, exRootB] = some r
      ∧ r.children = [exLeafA, exRootB].take 1
          ++ ([exLeafA, exRootB].getD 1 default).children ++ [exLeafA, exRootB].drop 2
      ∧ r.errorSize =
          (tsTreeSetChildren ([exLeafA, exRootB].getD 1 default)
            ([exLeafA, exRootB].take 1 ++ ([exLeafA, exRootB].getD 1 default).children
              ++ [exLeafA, exRootB].drop 2)).errorSize
          + (([exLeafA, exRootB].take 1).countP fun t => !t.extra)
            * (([exLeafA, exRootB].take 1 ++ ([exLeafA, exRootB].getD 1 default).children
                ++ [exLeafA, exRootB].drop 2).getD 1 default).size
      ∧ ([exLeafA, exRootB].getD 1 default).extra = false
      ∧ ∀ k, 1 < k → k < [exLeafA, exRootB].length →
          ([exLeafA, exRootB].getD k default).extra = true :=
  ⟨by decide, accept_finalize_characterization [exLeafA, exRootB] 1 (by decide)⟩

theorem list_getD_append_lt {α : Type} :
    ∀ (s t : List α) (i : Nat) (d : α), i < s.length → (s ++ t).getD i d = s.getD i d := by
  intro s
  induction s with
  | nil => intro t i d h; exact absurd h (by simp)
  | cons a s ih =>
    intro t i d h
    cases i with
    | zero => rfl
    | succ n =>
      simp only [List.cons_append, List.getD_cons_succ]
      exact ih t n d (by simpa using h)

theorem list_getD_append_at {α : Type} :
    ∀ (s : List α) (y : α) (l : List α) (d : α), (s ++ y :: l).getD s.length d = y := by
  intro s
  induction s with
  | nil => intro y l d; rfl
  | cons a s ih =>
    intro y l d
    simpa only [List.cons_append, List.length_cons, List.getD_cons_succ] using ih y l d

theorem list_set_append_lt {α : Type} :
    ∀ (s t : List α) (i : Nat) (x : α), i < s.length → (s ++ t).set i x = s.set i x ++ t := by
  intro s
  induction s with
  | nil => intro t i x h; exact absurd h (by simp)
  | cons a s ih =>
    intro t i x h
    cases i with
    | zero => rfl
    | succ n =>
      simp only [List.cons_append, List.set_cons_succ]
      rw [ih t n x (by simpa using h)]

theorem list_set_append_at {α : Type} :
    ∀ (s : List α) (y : α) (l : List α) (x : α), (s ++ y :: l).set s.length x = s ++ x :: l := by
  intro s
  induction s with
  | nil => intro y l x; rfl
  | cons a s ih =>
    intro y l x
    simp only [List.cons_append, List.length_cons, List.set_cons_succ]
    rw [ih y l x]

theorem list_eraseIdx_append_at {α : Type} :
    ∀ (s : List α) (y : α) (l : List α), (s ++ y :: l).eraseIdx s.length = s ++ l := by
  intro s
  induction s with
  | nil => intro y l; rfl
  | cons a s ih =>
    intro y l
    simp only [List.cons_append, List.length_cons, List.eraseIdx_cons_succ]
    rw [ih y l]

theorem list_getD_set_eq {α : Type} :
    ∀ (l : List α) (i : Nat) (x d : α), i < l.length → (l.set i x).getD i d = x := by
  intro l
  induction l with
  | nil => intro i x d h; exact absurd h (by simp)
  | cons a l ih =>
    intro i x d h
    cases i with
    | zero => rfl
    | succ n =>
      simp only [List.set_cons_succ, List.getD_cons_succ]
      exact ih n x d (by simpa using h)

theorem list_getD_set_ne {α : Type} :
    ∀ (l : List α) (i j : Nat) (x d : α), i ≠ j → (l.set i x).getD j d = l.getD j d := by
  intro l
  induction l with
  | nil => intro i j x d _; simp [List.set_nil]
  | cons a l ih =>
    intro i j x d h
    cases i with
    | zero =>
      cases j with
      | zero => exact absurd rfl h
      | succ m => rfl
    | succ n =>
      cases j with
      | zero => rfl
      | succ m =>
        simp only [List.set_cons_succ, List.getD_cons_succ]
        exact ih n m x d (by omega)

theorem list_set_eraseIdx_same {α : Type} :
    ∀ (l : List α) (i : Nat) (x : α), (l.set i x).eraseIdx i = l.eraseIdx i := by
  intro l
  induction l with
  | nil => intro i x; simp [List.set_nil]
  | cons a l ih =>
    intro i x
    cases i with
    | zero => rfl
    | succ n =>
      simp only [List.set_cons_succ, List.eraseIdx_cons_succ]
      rw [ih n x]

theorem list_set_set_same {α : Type} :
    ∀ (l : List α) (i : Nat) (x y : α), (l.set i x).set i y = l.set i y := by
  intro l
  induction l with
  | nil => intro i x y; simp [List.set_nil]
  | cons a l ih =>
    intro i x y
    cases i with
    | zero => rfl
    | succ n =>
      simp only [List.set_cons_succ]
      rw [ih n x y]

/-- Modelled from the spec: one stack entry of a version — a pushed tree (the
error handler's null markers have no tree) and the state it was pushed
with. -/
structure StackFrame where
  tree : Option TSTree
  state : Nat

/-- Modelled from the spec: the stack as its per-version frame lists (newest
frame first); the GSS sharing is out of scope (§1), so versions are kept as
independent paths, which is what the driver observes through the §6
primitives. -/
abbrev TSStack : Type := List (List StackFrame)

/-- `version_count()` (§6). -/
def tsStackVersionCount (s : TSStack) : Nat := List.length s

/-- The frame list of one version. -/
def tsStackFrames (s : TSStack) (v : Nat) : List StackFrame := List.getD s v []

/-- `push(v, tree, is_pending, state)` (§6); the pending flag does not matter
for the error handler and is dropped. -/
def tsStackPush (s : TSStack) (v : Nat) (t : Option TSTree) (st : Nat) : TSStack :=
  List.set s v (StackFrame.mk t st :: tsStackFrames s v)

/-- The top frame of a version. -/
def tsStackTopFrame (s : TSStack) (v : Nat) : Option StackFrame :=
  (tsStackFrames s v).head?

/-- `top_state(v)` (§6). -/
def tsStackTopState (s : TSStack) (v : Nat) : Nat :=
  match (tsStackFrames s v).head? with
  | some f => f.state
  | none => 0

/-- `remove_version(v)` (§6). -/
def tsStackRemoveVersion (s : TSStack) (v : Nat) : TSStack := List.eraseIdx s v

/-- `renumber_version(src, dst)` (§6): the source version's path replaces the
destination slot and the source slot disappears. -/
def tsStackRenumberVersion (s : TSStack) (src dst : Nat) : TSStack :=
  List.eraseIdx (List.set s dst (tsStackFrames s src)) src

/-- Modelled from the spec: `merge(a, b)` (§6) merges version `b` into `a`
when their heads agree — in the driver's only use both heads are null
`STATE_ERROR` markers — removing version `b`. -/
def tsStackMerge (s : TSStack) (a b : Nat) : Option TSStack :=
  match tsStackTopFrame s a, tsStackTopFrame s b with
  | some fa, some fb =>
    if fa.tree.isNone && fb.tree.isNone && decide (fa.state = fb.state) then
      some (tsStackRemoveVersion s b)
    else none
  | _, _ => none

/-- Modelled from the spec: walking `n` frames down a version for
`pop_count(v, n)`: collect the popped trees (topmost first) with the remaining
frames; stop early at an error boundary (a null-tree marker), consuming it;
`none` is the failed pop. -/
def popFramesGo : List StackFrame → Nat → Option (List TSTree × List StackFrame × Bool)
  | fs, 0 => some ([], fs, false)
  | [], _ + 1 => none
  | f :: fs, n + 1 =>
    match f.tree with
    | none => some ([], fs, true)
    | some t =>
      match popFramesGo fs n with
      | none => none
      | some (ts, rest, stp) => some (t :: ts, rest, stp)

/-- The result of `pop_count(v, n)`: status, the slice's version and trees
(left-to-right), and the stack afterwards. -/
structure StackPopOutcome where
  stoppedAtError : Bool
  sliceVersion : Nat
  sliceTrees : List TSTree
  stack : TSStack

/-- Modelled from the spec: `pop_count(v, n)` (§6).  The popped path becomes a
new version appended at the end, leaving the original version intact (the
driver renumbers the slice's version onto the original or removes it
afterwards); `none` is `StackPopFailed`. -/
def tsStackPopCount (s : TSStack) (v n : Nat) : Option StackPopOutcome :=
  match popFramesGo (tsStackFrames s v) n with
  | none => none
  | some (ts, rest, stp) =>
    some (StackPopOutcome.mk stp (tsStackVersionCount s) ts.reverse (s ++ [rest]))

/-- Outcome of `ts_parser__reduce` over the stack model. -/
inductive ReduceOutcome where
  | failed
  | stoppedAtError (sliceVersion : Nat) (sliceTrees : List TSTree) (stack : TSStack)
  | succeeded (stack : TSStack) (sliceVersion : Nat) (parent : TSTree)

/-- `ts_parser__reduce` (parser.c:367-450) over the stack model: pop `count`
frames; on an error boundary hand the slice back for repair; otherwise build
and mark the parent with `reduceBuildParent` (reading the top state of the
slice's version after the pop and the live version count), push it with the
next state, and re-push the trailing extra trees with that same state.  The
duplicate-slice merge does not arise (the model's pops yield one slice) and
`merge_from` is the identity here. -/
def tsParserReduce (lang : TSLanguage) (isSplit : Bool) (s : TSStack) (v : Nat)
    (sym count : Nat) (extra fragile : Bool) : ReduceOutcome :=
  match tsStackPopCount s v count with
  | none => ReduceOutcome.failed
  | some po =>
    if po.stoppedAtError then
      ReduceOutcome.stoppedAtError po.sliceVersion po.sliceTrees po.stack
    else
      let stateAP := tsStackTopState po.stack po.sliceVersion
      let multiple := decide (1 < tsStackVersionCount po.stack)
      let pr := reduceBuildParent lang sym po.sliceTrees fragile isSplit multiple stateAP extra
      let s2 := tsStackPush po.stack po.sliceVersion (some pr.1) pr.2
      let s3 := (po.sliceTrees.drop (childCountNoTrailingExtra po.sliceTrees)).foldl
        (fun acc t => tsStackPush acc po.sliceVersion (some t) pr.2) s2
      ReduceOutcome.succeeded s3 po.sliceVersion pr.1

/-- The scan of every symbol's actions at the error state (parser.c:689-715):
whether any non-extra shift or recover action exists, and the deduplicated
list of non-extra reduce actions with positive child count
(`ts_reduce_action_set_add`). -/
def handleErrorScan (lang : TSLanguage) (state : Nat) : Bool × List ReduceAction :=
  (List.range lang.symbolCount).foldl
    (fun acc sym =>
      (lang.actions state sym).foldl
        (fun acc2 a =>
          if a.extra then acc2
          else
            match a.type with
            | ActionType.shift => (true, acc2.2)
            | ActionType.recover => (true, acc2.2)
            | ActionType.reduce =>
              if 0 < a.childCount then
                (acc2.1,
                  if ReduceAction.mk a.symbol a.childCount ∈ acc2.2 then acc2.2
                  else acc2.2 ++ [ReduceAction.mk a.symbol a.childCount])
              else acc2
            | _ => acc2)
        acc)
    (false, [])

/-- The fan-out reduction loop of the error handler (parser.c:717-733): try
each collected reduce action with `fragile = true`; a reduction stopped at an
error boundary is discarded together with its version; the boolean records
whether any reduction succeeded. -/
def handleErrorReduces (lang : TSLanguage) (isSplit : Bool) (v : Nat) :
    List ReduceAction → TSStack → Bool → Option (TSStack × Bool)
  | [], s, didReduce => some (s, didReduce)
  | a :: rest, s, didReduce =>
    match tsParserReduce lang isSplit s v a.symbol a.count false true with
    | ReduceOutcome.failed => none
    | ReduceOutcome.stoppedAtError sv _ s1 =>
      handleErrorReduces lang isSplit v rest (tsStackRemoveVersion s1 sv) didReduce
    | ReduceOutcome.succeeded s1 _ _ =>
      handleErrorReduces lang isSplit v rest s1 true

/-- The marker-and-merge loop of the error handler (parser.c:739-743): while
extra versions remain beyond the entry count, push a null `STATE_ERROR`
marker onto the next one and merge it into the original version (the merge the
driver asserts); `none` would be a failed merge. -/
def markerMergeLoop (v prev : Nat) : Nat → TSStack → Option TSStack
  | 0, s => if tsStackVersionCount s ≤ prev then some s else none
  | fuel + 1, s =>
    if tsStackVersionCount s ≤ prev then some s
    else
      match tsStackMerge (tsStackPush s prev none tsParseStateError) v prev with
      | some s2 => markerMergeLoop v prev fuel s2
      | none => none

/-- `ts_parser__handle_error` (parser.c:684-749) over the stack model: scan
the state's actions, fan out the collected reduces, renumber the reduced
version onto the original slot when a reduce succeeded and no shift or
recover action exists, push the null `STATE_ERROR` marker, and merge every
extra version back.  The returned booleans record whether the renumbering
happened and whether any reduction succeeded (`did_reduce`). -/
def tsParserHandleError (lang : TSLanguage) (isSplit : Bool) (s : TSStack)
    (v state : Nat) : Option (TSStack × Bool × Bool) :=
  let prev := tsStackVersionCount s
  let scan := handleErrorScan lang state
  match handleErrorReduces lang isSplit v scan.2 s false with
  | none => none
  | some (s1, didReduce) =>
    let renumbered := didReduce && !scan.1
    let s2 := if renumbered then tsStackRenumberVersion s1 prev v else s1
    let s3 := tsStackPush s2 v none tsParseStateError
    match markerMergeLoop v prev (tsStackVersionCount s3) s3 with
    | none => none
    | some s4 => some (s4, renumbered, didReduce)

theorem list_getD_eraseIdx_lt {α : Type} :
    ∀ (l : List α) (i j : Nat) (d : α), j < i → (l.eraseIdx i).getD j d = l.getD j d := by
  intro l
  induction l with
  | nil => intro i j d _; simp [List.eraseIdx_nil]
  | cons a l ih =>
    intro i j d h
    cases i with
    | zero => omega
    | succ n =>
      cases j with
      | zero => rfl
      | succ m =>
        simp only [List.eraseIdx_cons_succ, List.getD_cons_succ]
        exact ih n m d (by omega)

theorem list_take_eraseIdx {α : Type} :
    ∀ (l : List α) (i : Nat), (l.eraseIdx i).take i = l.take i := by
  intro l
  induction l with
  | nil => intro i; simp [List.eraseIdx_nil]
  | cons a l ih =>
    intro i
    cases i with
    | zero => rfl
    | succ n =>
      simp only [List.eraseIdx_cons_succ, List.take_succ_cons]
      rw [ih n]

theorem list_length_eraseIdx_lt {α : Type} :
    ∀ (l : List α) (i : Nat), i < l.length → (l.eraseIdx i).length = l.length - 1 := by
  intro l
  induction l with
  | nil => intro i h; exact absurd h (by simp)
  | cons a l ih =>
    intro i h
    cases i with
    | zero => simp
    | succ n =>
      simp only [List.eraseIdx_cons_succ, List.length_cons]
      rw [ih n (by simpa using h)]
      have : 0 < l.length := by
        simp only [List.length_cons] at h
        omega
      omega

theorem tsStackPush_append_at (s : TSStack) (y : List StackFrame) (t : Option TSTree)
    (st : Nat) :
    tsStackPush (s ++ [y]) (List.length s) t st = s ++ [StackFrame.mk t st :: y] := by
  unfold tsStackPush tsStackFrames
  rw [list_getD_append_at s y [] []]
  exact list_set_append_at s y [] _

theorem foldl_push_shape :
    ∀ (ts : List TSTree) (s : TSStack) (y : List StackFrame) (st : Nat),
      ∃ y2, ts.foldl (fun acc t => tsStackPush acc (List.length s) (some t) st) (s ++ [y])
        = s ++ [y2] := by
  intro ts
  induction ts with
  | nil => intro s y st; exact ⟨y, rfl⟩
  | cons t ts ih =>
    intro s y st
    simp only [List.foldl_cons]
    rw [tsStackPush_append_at]
    exact ih s _ st

theorem tsStackPopCount_shape (s : TSStack) (v n : Nat) (po : StackPopOutcome)
    (h : tsStackPopCount s v n = some po) :
    ∃ rest, po.stack = s ++ [rest] ∧ po.sliceVersion = tsStackVersionCount s := by
  cases hgo : popFramesGo (tsStackFrames s v) n with
  | none =>
    rw [tsStackPopCount, hgo] at h
    exact absurd h (by simp)
  | some trip =>
    obtain ⟨ts, rest, stp⟩ := trip
    rw [tsStackPopCount, hgo] at h
    injection h with hpo
    subst hpo
    exact ⟨rest, rfl, rfl⟩

theorem foldl_push_shape2 (ts : List TSTree) (s : TSStack) (y : List StackFrame)
    (st : Nat) (s3 : TSStack)
    (h : ts.foldl (fun acc t => tsStackPush acc (List.length s) (some t) st) (s ++ [y]) = s3) :
    ∃ y2, s3 = s ++ [y2] := by
  obtain ⟨y2, hy2⟩ := foldl_push_shape ts s y st
  exact ⟨y2, by rw [← h, hy2]⟩

theorem tsParserReduce_succeeded_shape (lang : TSLanguage) (isSplit : Bool)
    (s : TSStack) (v sym count : Nat) (extra fragile : Bool)
    (s3 : TSStack) (sv : Nat) (p : TSTree)
    (h : tsParserReduce lang isSplit s v sym count extra fragile
      = ReduceOutcome.succeeded s3 sv p) :
    ∃ y, s3 = s ++ [y] ∧ sv = tsStackVersionCount s := by
  cases hpop : tsStackPopCount s v count with
  | none =>
    simp only [tsParserReduce, hpop] at h
    exact absurd h (by simp)
  | some po =>
    obtain ⟨rest, hstack, hsv⟩ := tsStackPopCount_shape s v count po hpop
    obtain ⟨stp, sver, strees, sstack⟩ := po
    have hstack2 : sstack = s ++ [rest] := hstack
    have hsv2 : sver = tsStackVersionCount s := hsv
    simp only [tsParserReduce, hpop] at h
    rw [hstack2, hsv2] at h
    simp only [tsStackVersionCount] at h
    cases stp with
    | true =>
      rw [if_pos rfl] at h
      exact absurd h (by simp)
    | false =>
      rw [if_neg (by simp)] at h
      rw [tsStackPush_append_at] at h
      injection h with hs3 hsv3 hp
      obtain ⟨y2, hy2⟩ := foldl_push_shape2 _ _ _ _ _ hs3
      exact ⟨y2, hy2, hsv3.symm⟩

theorem tsParserReduce_stopped_shape (lang : TSLanguage) (isSplit : Bool)
    (s : TSStack) (v sym count : Nat) (extra fragile : Bool)
    (s1 : TSStack) (sv : Nat) (ts2 : List TSTree)
    (h : tsParserReduce lang isSplit s v sym count extra fragile
      = ReduceOutcome.stoppedAtError sv ts2 s1) :
    ∃ y, s1 = s ++ [y] ∧ sv = tsStackVersionCount s := by
  cases hpop : tsStackPopCount s v count with
  | none =>
    simp only [tsParserReduce, hpop] at h
    exact absurd h (by simp)
  | some po =>
    obtain ⟨rest, hstack, hsv⟩ := tsStackPopCount_shape s v count po hpop
    obtain ⟨stp, sver, strees, sstack⟩ := po
    have hstack2 : sstack = s ++ [rest] := hstack
    have hsv2 : sver = tsStackVersionCount s := hsv
    simp only [tsParserReduce, hpop] at h
    rw [hstack2, hsv2] at h
    cases stp with
    | true =>
      rw [if_pos rfl] at h
      injection h with h1 h2 h3
      exact ⟨rest, h3.symm, h1.symm⟩
    | false =>
      rw [if_neg (by simp)] at h
      exact absurd h (by simp)

theorem tsStackRemove_append_at (s : TSStack) (y : List StackFrame) :
    tsStackRemoveVersion (s ++ [y]) (tsStackVersionCount s) = s := by
  unfold tsStackRemoveVersion tsStackVersionCount
  rw [list_eraseIdx_append_at s y []]
  exact List.append_nil s

theorem handleErrorReduces_shape (lang : TSLanguage) (isSplit : Bool) (v : Nat) :
    ∀ (acts : List ReduceAction) (s : TSStack) (d : Bool) (s1 : TSStack) (d1 : Bool),
      handleErrorReduces lang isSplit v acts s d = some (s1, d1) →
      ∃ ex : List (List StackFrame), s1 = s ++ ex ∧ (d1 = true → d = true ∨ ex ≠ []) := by
  intro acts
  induction acts with
  | nil =>
    intro s d s1 d1 h
    simp only [handleErrorReduces, Option.some.injEq, Prod.mk.injEq] at h
    obtain ⟨hs, hd⟩ := h
    subst hs
    subst hd
    exact ⟨[], by simp, fun h1 => Or.inl h1⟩
  | cons a rest ih =>
    intro s d s1 d1 h
    rw [handleErrorReduces] at h
    cases hr : tsParserReduce lang isSplit s v a.symbol a.count false true with
    | failed =>
      rw [hr] at h
      exact absurd h (by simp)
    | stoppedAtError sv ts2 st =>
      simp only [hr] at h
      obtain ⟨y, hy, hsv⟩ := tsParserReduce_stopped_shape lang isSplit s v a.symbol
        a.count false true st sv ts2 hr
      rw [hy, hsv, tsStackRemove_append_at] at h
      exact ih s d s1 d1 h
    | succeeded st sv p =>
      simp only [hr] at h
      obtain ⟨y, hy, _⟩ := tsParserReduce_succeeded_shape lang isSplit s v a.symbol
        a.count false true st sv p hr
      subst hy
      obtain ⟨ex, hex, _⟩ := ih (s ++ [y]) true s1 d1 h
      refine ⟨y :: ex, ?_, ?_⟩
      · rw [hex]
        simp
      · intro _
        exact Or.inr (by simp)

theorem markerMergeLoop_spec :
    ∀ (fuel : Nat) (s : TSStack) (v prev : Nat), v < prev →
      tsStackTopFrame s v = some (StackFrame.mk none tsParseStateError) →
      tsStackVersionCount s ≤ prev + fuel →
      markerMergeLoop v prev fuel s = some (s.take prev) := by
  intro fuel
  induction fuel with
  | zero =>
    intro s v prev hv hh hlen
    rw [markerMergeLoop, if_pos (by omega)]
    rw [List.take_of_length_le (by simpa [tsStackVersionCount] using hlen)]
  | succ n ih =>
    intro s v prev hv hh hlen
    rw [markerMergeLoop]
    by_cases hle : tsStackVersionCount s ≤ prev
    · rw [if_pos hle, List.take_of_length_le (by simpa [tsStackVersionCount] using hle)]
    · rw [if_neg hle]
      have hprevlt : prev < List.length s := by
        simp only [tsStackVersionCount] at hle
        omega
      have hframes_push_v :
          tsStackFrames (tsStackPush s prev none tsParseStateError) v
            = tsStackFrames s v := by
        unfold tsStackPush tsStackFrames
        exact list_getD_set_ne _ prev v _ _ (by omega)
      have hframes_push_prev :
          tsStackFrames (tsStackPush s prev none tsParseStateError) prev
            = StackFrame.mk none tsParseStateError :: tsStackFrames s prev := by
        unfold tsStackPush tsStackFrames
        exact list_getD_set_eq _ prev _ _ hprevlt
      have htfv : tsStackTopFrame (tsStackPush s prev none tsParseStateError) v
          = some (StackFrame.mk none tsParseStateError) := by
        unfold tsStackTopFrame
        rw [hframes_push_v]
        exact hh
      have htfp : tsStackTopFrame (tsStackPush s prev none tsParseStateError) prev
          = some (StackFrame.mk none tsParseStateError) := by
        unfold tsStackTopFrame
        rw [hframes_push_prev]
        rfl
      have hmerge : tsStackMerge (tsStackPush s prev none tsParseStateError) v prev
          = some (tsStackRemoveVersion (tsStackPush s prev none tsParseStateError) prev) := by
        unfold tsStackMerge
        rw [htfv, htfp]
        simp
      have hremove :
          tsStackRemoveVersion (tsStackPush s prev none tsParseStateError) prev
            = List.eraseIdx s prev := by
        unfold tsStackRemoveVersion tsStackPush
        exact list_set_eraseIdx_same s prev _
      simp only [hmerge, hremove]
      rw [ih (List.eraseIdx s prev) v prev hv ?_ ?_]
      · rw [list_take_eraseIdx s prev]
      · unfold tsStackTopFrame tsStackFrames
        unfold tsStackTopFrame tsStackFrames at hh
        rw [list_getD_eraseIdx_lt s prev v [] hv]
        exact hh
      · simp only [tsStackVersionCount] at hlen ⊢
        rw [list_length_eraseIdx_lt s prev hprevlt]
        omega

/-- C8: whenever the error handler succeeds, the stack ends with exactly as
many live versions as on entry, the original version is topped by a null tree
in `STATE_ERROR` (every extra version created by the fan-out had its marker
pushed and was merged away), every other original version is untouched, and
the reduced version is renumbered onto the original slot exactly when at
least one reduce succeeded and no shift or recover action exists at the
state. -/
theorem handle_error_restores_version_count :
    ∀ (lang : TSLanguage) (isSplit : Bool) (s : TSStack) (v state : Nat)
      (s4 : TSStack) (ren didRed : Bool),
      v < tsStackVersionCount s →
      tsParserHandleError lang isSplit s v state = some (s4, ren, didRed) →
      tsStackVersionCount s4 = tsStackVersionCount s
      ∧ tsStackTopFrame s4 v = some (StackFrame.mk none tsParseStateError)
      ∧ ren = (didRed && !(handleErrorScan lang state).1)
      ∧ ∀ i, i < tsStackVersionCount s → i ≠ v → tsStackFrames s4 i = tsStackFrames s i := by
  intro lang isSplit s v state s4 ren didRed hv hmain
  have hv2 : v < List.length s := hv
  cases hred : handleErrorReduces lang isSplit v (handleErrorScan lang state).2 s false with
  | none =>
    simp only [tsParserHandleError, hred] at hmain
    exact absurd hmain (by simp)
  | some p =>
    obtain ⟨s1, d1⟩ := p
    obtain ⟨ex, hex, himp⟩ := handleErrorReduces_shape lang isSplit v _ s false s1 d1 hred
    simp only [tsParserHandleError, hred] at hmain
    by_cases hren : (d1 && !(handleErrorScan lang state).1) = true
    · rw [hren, if_pos rfl] at hmain
      have hd1 : d1 = true := by
        cases d1 with
        | true => rfl
        | false => exact absurd hren (by simp)
      have hexne : ex ≠ [] := by
        rcases himp hd1 with hf | hne
        · exact absurd hf (by simp)
        · exact hne
      obtain ⟨y, ex2, hyex⟩ : ∃ y ex2, ex = y :: ex2 := by
        cases ex with
        | nil => exact absurd rfl hexne
        | cons a b => exact ⟨a, b, rfl⟩
      subst hyex
      subst hex
      have hrenum : tsStackRenumberVersion (s ++ y :: ex2) (tsStackVersionCount s) v
          = List.set s v y ++ ex2 := by
        unfold tsStackRenumberVersion tsStackFrames tsStackVersionCount
        rw [list_getD_append_at s y ex2 []]
        rw [list_set_append_lt s (y :: ex2) v y hv2]
        have hlen : List.length s = (List.set s v y).length := by simp
        rw [hlen]
        exact list_eraseIdx_append_at (List.set s v y) y ex2
      rw [hrenum] at hmain
      have hpush : tsStackPush (List.set s v y ++ ex2) v none tsParseStateError
          = List.set s v (StackFrame.mk none tsParseStateError :: y) ++ ex2 := by
        unfold tsStackPush tsStackFrames
        rw [list_getD_append_lt _ ex2 v [] (by simpa using hv2)]
        rw [list_getD_set_eq s v y [] hv2]
        rw [list_set_append_lt _ ex2 v _ (by simpa using hv2)]
        rw [list_set_set_same]
      rw [hpush] at hmain
      have htop : tsStackTopFrame
          (List.set s v (StackFrame.mk none tsParseStateError :: y) ++ ex2) v
          = some (StackFrame.mk none tsParseStateError) := by
        unfold tsStackTopFrame tsStackFrames
        rw [list_getD_append_lt _ ex2 v [] (by simpa using hv2)]
        rw [list_getD_set_eq s v _ [] hv2]
        rfl
      rw [markerMergeLoop_spec _ _ v (tsStackVersionCount s) hv htop
        (by simp [tsStackVersionCount])] at hmain
      have htake : (List.set s v (StackFrame.mk none tsParseStateError :: y) ++ ex2).take
          (tsStackVersionCount s) = List.set s v (StackFrame.mk none tsParseStateError :: y) := by
        rw [List.take_append_of_le_length (by simp [tsStackVersionCount])]
        exact List.take_of_length_le (by simp [tsStackVersionCount])
      rw [htake] at hmain
      simp only [Option.some.injEq, Prod.mk.injEq] at hmain
      obtain ⟨hs4, hr2, hd2⟩ := hmain
      subst hs4
      refine ⟨by simp [tsStackVersionCount], ?_, ?_, ?_⟩
      · unfold tsStackTopFrame tsStackFrames
        rw [list_getD_set_eq s v _ [] hv2]
        rfl
      · rw [← hr2, ← hd2]
        exact hren.symm
      · intro i hi hiv
        unfold tsStackFrames
        exact list_getD_set_ne s v i _ [] (by omega)
    · rw [if_neg hren] at hmain
      subst hex
      have hpush : tsStackPush (s ++ ex) v none tsParseStateError
          = List.set s v (StackFrame.mk none tsParseStateError :: List.getD s v []) ++ ex := by
        unfold tsStackPush tsStackFrames
        rw [list_getD_append_lt s ex v [] hv2]
        rw [list_set_append_lt s ex v _ hv2]
      rw [hpush] at hmain
      have htop : tsStackTopFrame
          (List.set s v (StackFrame.mk none tsParseStateError :: List.getD s v []) ++ ex) v
          = some (StackFrame.mk none tsParseStateError) := by
        unfold tsStackTopFrame tsStackFrames
        rw [list_getD_append_lt _ ex v [] (by simpa using hv2)]
        rw [list_getD_set_eq s v _ [] hv2]
        rfl
      rw [markerMergeLoop_spec _ _ v (tsStackVersionCount s) hv htop
        (by simp [tsStackVersionCount])] at hmain
      have htake : (List.set s v (StackFrame.mk none tsParseStateError :: List.getD s v [])
          ++ ex).take (tsStackVersionCount s)
          = List.set s v (StackFrame.mk none tsParseStateError :: List.getD s v []) := by
        rw [List.take_append_of_le_length (by simp [tsStackVersionCount])]
        exact List.take_of_length_le (by simp [tsStackVersionCount])
      rw [htake] at hmain
      simp only [Option.some.injEq, Prod.mk.injEq] at hmain
      obtain ⟨hs4, hr2, hd2⟩ := hmain
      subst hs4
      refine ⟨by simp [tsStackVersionCount], ?_, ?_, ?_⟩
      · unfold tsStackTopFrame tsStackFrames
        rw [list_getD_set_eq s v _ [] hv2]
        rfl
      · rw [← hr2, ← hd2]
      · intro i hi hiv
        unfold tsStackFrames
        exact list_getD_set_ne s v i _ [] (by omega)

/-- C8 witness: on a one-version stack at a state with no actions, the error
handler just pushes the marker, leaving one version topped by it. -/
theorem handle_error_restores_version_count_witness :
    ((0 : Nat) < tsStackVersionCount [[StackFrame.mk (some (exLeafSym 4)) 3]])
    ∧ (tsStackVersionCount [[StackFrame.mk none tsParseStateError,
          StackFrame.mk (some (exLeafSym 4)) 3]]
        = tsStackVersionCount [[StackFrame.mk (some (exLeafSym 4)) 3]]
      ∧ tsStackTopFrame [[StackFrame.mk none tsParseStateError,
          StackFrame.mk (some (exLeafSym 4)) 3]] 0
          = some (StackFrame.mk none tsParseStateError)
      ∧ false = (false && !(handleErrorScan exLangEmpty 0).1)
      ∧ ∀ i, i < tsStackVersionCount [[StackFrame.mk (some (exLeafSym 4)) 3]] → i ≠ 0 →
          tsStackFrames [[StackFrame.mk none tsParseStateError,
            StackFrame.mk (some (exLeafSym 4)) 3]] i
            = tsStackFrames [[StackFrame.mk (some (exLeafSym 4)) 3]] i) := by
  refine ⟨by decide, ?_⟩
  exact handle_error_restores_version_count exLangEmpty false
    [[StackFrame.mk (some (exLeafSym 4)) 3]] 0 0
    [[StackFrame.mk none tsParseStateError, StackFrame.mk (some (exLeafSym 4)) 3]]
    false false (by decide) rfl
